import Mathlib

/-!
Verification of the directory-tree renderer (`py.py`).

The program recursively lists a directory, filters out hidden entries and
`node_modules`, sorts the remaining children by name, and renders each as
`prefix + connector + name`, recursing into subdirectories with an extended
prefix.  A `PermissionError` while listing makes the function return the
empty list of lines; other listing errors are not caught.

We embed the filesystem as a finite tree.  A directory carries a Boolean
flag: `true` means `os.listdir` succeeds and yields the children, `false`
means `os.listdir` raises `PermissionError`.
-/

/-- A filesystem entry: a file with a name, or a directory with a name, a
listability flag (`false` models `PermissionError` on `os.listdir`) and a
list of children. -/
inductive Entry : Type where
  | file : String → Entry
  | dir : String → Bool → List Entry → Entry

namespace Entry

/-- The name of an entry, as returned by `os.listdir` of its parent. -/
def name : Entry → String
  | .file n => n
  | .dir n _ _ => n

/-- `os.path.isdir` on the entry's path. -/
def isDir : Entry → Bool
  | .file _ => false
  | .dir _ _ _ => true

end Entry

/-- Python's `str.startswith`: the argument's code-point sequence is a
prefix of the receiver's.  A Lean `String` carries its code points in
`data`, so the test is prefix-of on `data`. -/
def pyStartsWith (s p : String) : Bool := p.data.isPrefixOf s.data

/-- The filter of the source, line 14:
`not entry.startswith('.') and entry != 'node_modules'`. -/
def keep (e : Entry) : Bool :=
  !(pyStartsWith e.name ".") && !(e.name == "node_modules")

/-- Order on entries by name; `sorted(os.listdir(...))` sorts the returned
names with Python's lexicographic string order, which corresponds to the
lexicographic order on `String`. -/
def nameLe (a b : Entry) : Prop := a.name ≤ b.name

instance : DecidableRel nameLe := fun a b => by
  unfold nameLe; infer_instance

instance : IsTotal Entry nameLe := ⟨fun a b => le_total a.name b.name⟩

instance : IsTrans Entry nameLe := ⟨fun _ _ _ h h' => le_trans h h'⟩

/-- `sorted(os.listdir(start_path))`, line 7, modelled on the entries
themselves: a real directory has pairwise distinct child names, so the
stable sort of the name list corresponds to the stable sort of the entry
list by name. -/
def sortEnt (l : List Entry) : List Entry := l.insertionSort nameLe

theorem sizeOf_perm : ∀ {l₁ l₂ : List Entry}, l₁.Perm l₂ → sizeOf l₁ = sizeOf l₂ := by
  intro l₁ l₂ h
  induction h with
  | nil => rfl
  | cons x _ ih => simp [ih]
  | swap x y l => simp; omega
  | trans _ _ ih₁ ih₂ => omega

theorem sizeOf_filter_le (p : Entry → Bool) : ∀ l : List Entry, sizeOf (l.filter p) ≤ sizeOf l := by
  intro l
  induction l with
  | nil => simp
  | cons e rest ih =>
    rw [List.filter_cons]
    by_cases h : p e
    · simp [h]; omega
    · simp [h]; omega

theorem sizeOf_sortEnt (l : List Entry) : sizeOf (sortEnt l) = sizeOf l :=
  sizeOf_perm (List.perm_insertionSort nameLe l)

mutual

/-- `build_tree(start_path, prefix)` of the source, lines 3–28.  The first
case is never reached by the program (it only calls `build_tree` on paths
that passed `os.path.isdir`); on such a path `os.listdir` would raise an
error that is not caught (see `listdirTry`).  The second case is the
`except PermissionError: return output_lines` branch, returning no lines. -/
def build_tree : Entry → String → List String
  | .file _, _ => []
  | .dir _ false _, _ => []
  | .dir _ true children, pfx => renderLoop ((sortEnt children).filter keep) pfx
termination_by e _ => sizeOf e
decreasing_by
  have h1 := sizeOf_filter_le keep (sortEnt children)
  have h2 := sizeOf_sortEnt children
  simp only [Entry.dir.sizeOf_spec]
  omega

/-- The `for index, entry in enumerate(entries)` loop of lines 17–26:
`index == len(entries) - 1` holds exactly when the remaining tail is
empty. -/
def renderLoop : List Entry → String → List String
  | [], _ => []
  | e :: rest, pfx =>
    let is_last := rest.isEmpty
    let connector := if is_last then "└── " else "├── "
    (pfx ++ connector ++ e.name) ::
      ((if e.isDir then
          build_tree e (pfx ++ (if is_last then "    " else "│   "))
        else []) ++ renderLoop rest pfx)
termination_by es _ => sizeOf es
decreasing_by
  all_goals simp
  all_goals omega

end

/-- The entry point, lines 37–38: the root path is the first line, followed
by the lines of `build_tree(root, '')`. -/
def scan (rootPath : String) (root : Entry) : List String :=
  rootPath :: build_tree root ""

/-- The errors `os.listdir` can raise in this program: `PermissionError`
(modelled by the directory flag being `false`), `FileNotFoundError` (the
path does not exist, i.e. there is no entry), and `NotADirectoryError`
(the path is a file). -/
inductive ListdirError : Type where
  | permissionError : ListdirError
  | fileNotFound : ListdirError
  | notADirectory : ListdirError
deriving DecidableEq

/-- `os.listdir(start_path)` on an optional entry (`none` models a path
that does not exist). -/
def listdir : Option Entry → Except ListdirError (List Entry)
  | none => .error .fileNotFound
  | some (.file _) => .error .notADirectory
  | some (.dir _ false _) => .error .permissionError
  | some (.dir _ true ch) => .ok ch

/-- The `try/except PermissionError` of lines 6–9: only `PermissionError`
is caught (the function then returns with no lines, modelled by an empty
listing); every other error propagates unchanged. -/
def listdirTry (oe : Option Entry) : Except ListdirError (List Entry) :=
  match listdir oe with
  | .error .permissionError => .ok []
  | .error err => .error err
  | .ok entries => .ok entries

/-- Mark each list element with whether it is the last one, as
`index == len(entries) - 1` does for the enumerated list. -/
def withLast : List Entry → List (Entry × Bool)
  | [] => []
  | e :: rest => (e, rest.isEmpty) :: withLast rest

/-- The block of lines a single child contributes in the loop body, lines
19–26: its own line `prefix + connector + name`, then, when it is a
directory, the whole recursively built subtree under the extended
prefix. -/
def childBlock (pfx : String) (p : Entry × Bool) : List String :=
  (pfx ++ (if p.2 then "└── " else "├── ") ++ p.1.name) ::
    (if p.1.isDir then
      build_tree p.1 (pfx ++ (if p.2 then "    " else "│   "))
    else [])

mutual

/-- The total number of files and directories reachable from an entry by
recursive descent (the entry itself not counted). -/
def totalCount : Entry → Nat
  | .file _ => 0
  | .dir _ _ ch => countList ch

/-- Sum, over a list of entries, of one (for the entry itself) plus the
size of its subtree. -/
def countList : List Entry → Nat
  | [] => 0
  | e :: rest => 1 + totalCount e + countList rest

end

mutual

/-- A tree with no hidden entry, no `node_modules` entry and no
permission-denied directory anywhere. -/
def okTree : Entry → Bool
  | .file _ => true
  | .dir _ b ch => b && okList ch

/-- Every entry of the list is kept by the filter and its subtree is
`okTree`. -/
def okList : List Entry → Bool
  | [] => true
  | e :: rest => keep e && okTree e && okList rest

end

mutual

/-- The names emitted by `build_tree`, each annotated with the recursion
depth at which it is emitted. -/
def annTree : Entry → Nat → List (Nat × String)
  | .file _, _ => []
  | .dir _ false _, _ => []
  | .dir _ true children, d => annLoop ((sortEnt children).filter keep) d
termination_by e _ => sizeOf e
decreasing_by
  have h1 := sizeOf_filter_le keep (sortEnt children)
  have h2 := sizeOf_sortEnt children
  simp only [Entry.dir.sizeOf_spec]
  omega

/-- Depth-annotated version of the rendering loop. -/
def annLoop : List Entry → Nat → List (Nat × String)
  | [], _ => []
  | e :: rest, d =>
    (d, e.name) :: ((if e.isDir then annTree e (d + 1) else []) ++ annLoop rest d)
termination_by es _ => sizeOf es
decreasing_by
  all_goals simp
  all_goals omega

end

theorem build_tree_file (n pfx : String) : build_tree (.file n) pfx = [] := by
  simp [build_tree]

theorem build_tree_denied (n : String) (ch : List Entry) (pfx : String) :
    build_tree (.dir n false ch) pfx = [] := by
  simp [build_tree]

theorem build_tree_dir (n : String) (ch : List Entry) (pfx : String) :
    build_tree (.dir n true ch) pfx = renderLoop ((sortEnt ch).filter keep) pfx := by
  simp [build_tree]

theorem renderLoop_nil (pfx : String) : renderLoop [] pfx = [] := by
  simp [renderLoop]

theorem renderLoop_cons (e : Entry) (rest : List Entry) (pfx : String) :
    renderLoop (e :: rest) pfx =
      (pfx ++ (if rest.isEmpty then "└── " else "├── ") ++ e.name) ::
        ((if e.isDir then
            build_tree e (pfx ++ (if rest.isEmpty then "    " else "│   "))
          else []) ++ renderLoop rest pfx) := by
  simp [renderLoop]

theorem ite_isDir_build_tree (e : Entry) (pfx : String) :
    (if e.isDir then build_tree e pfx else []) = build_tree e pfx := by
  cases e with
  | file n => simp [Entry.isDir, build_tree_file]
  | dir n b ch => simp [Entry.isDir]

theorem renderLoop_eq_flatMap (es : List Entry) (pfx : String) :
    renderLoop es pfx = (withLast es).flatMap (childBlock pfx) := by
  induction es with
  | nil => simp [renderLoop_nil, withLast]
  | cons e rest ih =>
    simp only [renderLoop_cons, withLast, List.flatMap_cons, childBlock, ih,
      List.cons_append]

theorem sorted_sortEnt (l : List Entry) : (sortEnt l).Sorted nameLe :=
  List.sorted_insertionSort nameLe l

theorem orderedInsert_eq_cons {a : Entry} {M : List Entry}
    (h : ∀ c ∈ M, nameLe a c) : M.orderedInsert nameLe a = a :: M := by
  cases M with
  | nil => simp [List.orderedInsert]
  | cons b l => simp [List.orderedInsert, h b (List.mem_cons_self b l)]

theorem filter_orderedInsert_pos {a : Entry} (ha : keep a = true) :
    ∀ {L : List Entry}, L.Sorted nameLe →
      (L.orderedInsert nameLe a).filter keep = (L.filter keep).orderedInsert nameLe a := by
  intro L
  induction L with
  | nil => simp [List.orderedInsert, ha]
  | cons b M ih =>
    intro hs
    by_cases hab : nameLe a b
    · rw [List.orderedInsert, if_pos hab]
      by_cases hb : keep b = true
      · simp [List.filter_cons, ha, hb, List.orderedInsert, hab]
      · simp only [Bool.not_eq_true] at hb
        simp only [List.filter_cons, ha, hb, if_true, Bool.false_eq_true, if_false,
          Bool.true_eq_false, ite_self]
        rw [orderedInsert_eq_cons]
        intro c hc
        have hcM : c ∈ M := List.mem_of_mem_filter hc
        exact Trans.trans hab (List.rel_of_sorted_cons hs c hcM)
    · rw [List.orderedInsert, if_neg hab]
      have ih' := ih hs.of_cons
      by_cases hb : keep b = true
      · simp [List.filter_cons, hb, ih', List.orderedInsert, hab]
      · simp only [Bool.not_eq_true] at hb
        simp [List.filter_cons, hb, ih']

theorem filter_orderedInsert_neg {a : Entry} (ha : keep a = false) :
    ∀ L : List Entry, (L.orderedInsert nameLe a).filter keep = L.filter keep := by
  intro L
  induction L with
  | nil => simp [List.orderedInsert, List.filter_cons, ha]
  | cons b M ih =>
    by_cases hab : nameLe a b
    · rw [List.orderedInsert, if_pos hab]
      simp [List.filter_cons, ha]
    · rw [List.orderedInsert, if_neg hab]
      by_cases hb : keep b = true
      · simp [List.filter_cons, hb, ih]
      · simp only [Bool.not_eq_true] at hb
        simp [List.filter_cons, hb, ih]

theorem filter_sortEnt (l : List Entry) :
    (sortEnt l).filter keep = sortEnt (l.filter keep) := by
  induction l with
  | nil => rfl
  | cons a l ih =>
    show (List.orderedInsert nameLe a (sortEnt l)).filter keep = _
    by_cases ha : keep a = true
    · rw [filter_orderedInsert_pos ha (sorted_sortEnt l), ih, List.filter_cons, if_pos ha]
      rfl
    · simp only [Bool.not_eq_true] at ha
      rw [filter_orderedInsert_neg ha, ih, List.filter_cons, ha]
      simp

theorem entry_strong_ind (P : Entry → Prop)
    (h : ∀ e, (∀ e', sizeOf e' < sizeOf e → P e') → P e) : ∀ e, P e := by
  have key : ∀ (k : Nat) (e : Entry), sizeOf e < k → P e := by
    intro k
    induction k with
    | zero => intro e he; omega
    | succ k ih => intro e _ ; exact h e fun e' h' => ih e' (by omega)
  exact fun e => key (sizeOf e + 1) e (by omega)

theorem mem_of_mem_filterSort {e : Entry} {ch : List Entry}
    (h : e ∈ (sortEnt ch).filter keep) : e ∈ ch := by
  have := List.mem_of_mem_filter h
  simpa [sortEnt, List.mem_insertionSort] using this

theorem sizeOf_lt_of_mem_dir {e : Entry} {n : String} {b : Bool} {ch : List Entry}
    (h : e ∈ ch) : sizeOf e < sizeOf (Entry.dir n b ch) := by
  have := List.sizeOf_lt_of_mem h
  simp only [Entry.dir.sizeOf_spec]
  omega

theorem build_tree_hom_all :
    ∀ (e : Entry) (_s : String), ∀ p q : String,
      build_tree e (p ++ q) = (build_tree e q).map (fun l => p ++ l) := by
  refine build_tree.induct
    (fun e _ => ∀ p q, build_tree e (p ++ q) = (build_tree e q).map (fun l => p ++ l))
    (fun es _ => ∀ p q, renderLoop es (p ++ q) = (renderLoop es q).map (fun l => p ++ l))
    ?_ ?_ ?_ ?_ ?_
  · intro a x p q
    simp [build_tree_file]
  · intro a ch x p q
    simp [build_tree_denied]
  · intro a ch pfx ih p q
    rw [build_tree_dir, build_tree_dir]
    exact ih p q
  · intro x p q
    simp [renderLoop_nil]
  · intro e rest pfx _il ih1 ih2 p q
    rw [renderLoop_cons, renderLoop_cons]
    simp only [List.map_cons, List.map_append]
    rw [ih2 p q]
    congr 1
    · simp [String.append_assoc]
    · congr 1
      cases hd : e.isDir with
      | false => simp
      | true =>
        simp only [if_true]
        rw [String.append_assoc]
        exact ih1 p _

theorem build_tree_pfx_eq (e : Entry) (pfx : String) :
    build_tree e pfx = (build_tree e "").map (fun l => pfx ++ l) := by
  have h := build_tree_hom_all e "" pfx ""
  rwa [String.append_empty] at h

theorem length_build_tree_pfx (e : Entry) (pfx : String) :
    (build_tree e pfx).length = (build_tree e "").length := by
  rw [build_tree_pfx_eq]
  simp

theorem length_renderLoop (es : List Entry) (pfx : String) :
    (renderLoop es pfx).length =
      (es.map (fun e => 1 + (build_tree e "").length)).sum := by
  induction es with
  | nil => simp [renderLoop_nil]
  | cons e rest ih =>
    rw [renderLoop_cons, ite_isDir_build_tree]
    simp only [List.length_cons, List.length_append, ih, List.map_cons, List.sum_cons,
      length_build_tree_pfx]
    omega

theorem okList_mem : ∀ {l : List Entry}, okList l = true → ∀ {e : Entry}, e ∈ l →
    keep e = true ∧ okTree e = true := by
  intro l
  induction l with
  | nil => intro _ e he; cases he
  | cons a rest ih =>
    intro h e he
    simp only [okList, Bool.and_eq_true] at h
    rcases List.mem_cons.mp he with rfl | he'
    · exact ⟨h.1.1, h.1.2⟩
    · exact ih h.2 he'

theorem countList_eq_sum (l : List Entry) :
    countList l = (l.map (fun e => 1 + totalCount e)).sum := by
  induction l with
  | nil => rfl
  | cons e rest ih =>
    simp only [countList, ih, List.map_cons, List.sum_cons]

theorem sum_map_sortEnt (f : Entry → Nat) (l : List Entry) :
    ((sortEnt l).map f).sum = (l.map f).sum :=
  List.Perm.sum_eq (List.Perm.map f (List.perm_insertionSort nameLe l))

theorem length_build_tree_of_ok :
    ∀ e : Entry, okTree e = true → ∀ pfx, (build_tree e pfx).length = totalCount e := by
  refine entry_strong_ind
    (fun e => okTree e = true → ∀ pfx, (build_tree e pfx).length = totalCount e) ?_
  intro e ih hok pfx
  match e with
  | .file n => simp [build_tree_file, totalCount]
  | .dir n b ch =>
    simp only [okTree, Bool.and_eq_true] at hok
    cases b with
    | false => exact absurd hok.1 (by simp)
    | true =>
      rw [build_tree_dir, length_renderLoop]
      have hfilter : (sortEnt ch).filter keep = sortEnt ch :=
        List.filter_eq_self.mpr fun a ha =>
          (okList_mem hok.2 (by simpa [sortEnt, List.mem_insertionSort] using ha)).1
      rw [hfilter, sum_map_sortEnt]
      show _ = countList ch
      rw [countList_eq_sum]
      refine congrArg List.sum (List.map_congr_left fun a ha => ?_)
      rw [ih a (sizeOf_lt_of_mem_dir ha) (okList_mem hok.2 ha).2 ""]

theorem sum_map_filter_le (f : Entry → Nat) (p : Entry → Bool) (l : List Entry) :
    ((l.filter p).map f).sum ≤ (l.map f).sum := by
  induction l with
  | nil => simp
  | cons a rest ih =>
    rw [List.filter_cons]
    by_cases h : p a
    · simp only [h, if_true, List.map_cons, List.sum_cons]
      omega
    · simp only [h, Bool.false_eq_true, if_false, List.map_cons, List.sum_cons]
      omega

theorem length_build_tree_le :
    ∀ e : Entry, ∀ pfx, (build_tree e pfx).length ≤ totalCount e := by
  refine entry_strong_ind (fun e => ∀ pfx, (build_tree e pfx).length ≤ totalCount e) ?_
  intro e ih pfx
  match e with
  | .file n => simp [build_tree_file, totalCount]
  | .dir n false ch => simp [build_tree_denied, totalCount]
  | .dir n true ch =>
    rw [build_tree_dir, length_renderLoop]
    show _ ≤ countList ch
    calc (((sortEnt ch).filter keep).map (fun e => 1 + (build_tree e "").length)).sum
        ≤ ((sortEnt ch).map (fun e => 1 + (build_tree e "").length)).sum :=
          sum_map_filter_le _ _ _
      _ = (ch.map (fun e => 1 + (build_tree e "").length)).sum := sum_map_sortEnt _ _
      _ ≤ (ch.map (fun e => 1 + totalCount e)).sum :=
          List.sum_le_sum fun a ha => by
            have := ih a (sizeOf_lt_of_mem_dir ha) ""
            omega
      _ = countList ch := (countList_eq_sum ch).symm

/-- The shape every emitted line has: an (arbitrary) prefix, one of the two
connector glyphs, then a name that is neither hidden nor `node_modules`. -/
def goodLine (l : String) : Prop :=
  ∃ p n, (l = p ++ "├── " ++ n ∨ l = p ++ "└── " ++ n) ∧
    pyStartsWith n "." = false ∧ (n == "node_modules") = false

theorem keep_spec {e : Entry} (h : keep e = true) :
    pyStartsWith e.name "." = false ∧ (e.name == "node_modules") = false := by
  simp only [keep, Bool.and_eq_true, Bool.not_eq_true'] at h
  exact h

theorem mem_build_tree_goodLine :
    ∀ (e : Entry) (_s : String), ∀ pfx l, l ∈ build_tree e pfx → goodLine l := by
  refine build_tree.induct
    (fun e _ => ∀ pfx l, l ∈ build_tree e pfx → goodLine l)
    (fun es _ => ∀ pfx l, (∀ e' ∈ es, keep e' = true) → l ∈ renderLoop es pfx → goodLine l)
    ?_ ?_ ?_ ?_ ?_
  · intro a x pfx l hl
    rw [build_tree_file] at hl
    cases hl
  · intro a ch x pfx l hl
    rw [build_tree_denied] at hl
    cases hl
  · intro a ch pfx0 ih pfx l hl
    rw [build_tree_dir] at hl
    exact ih pfx l (fun e' he' => List.of_mem_filter he') hl
  · intro x pfx l _ hl
    rw [renderLoop_nil] at hl
    cases hl
  · intro e rest pfx0 _il ih1 ih2 pfx l hall hl
    rw [renderLoop_cons] at hl
    rcases List.mem_cons.mp hl with rfl | hl'
    · have hk := keep_spec (hall e (List.mem_cons_self e rest))
      cases hlast : rest.isEmpty with
      | true =>
        exact ⟨pfx, e.name, Or.inr (by simp), hk.1, hk.2⟩
      | false =>
        exact ⟨pfx, e.name, Or.inl (by simp), hk.1, hk.2⟩
    · rcases List.mem_append.mp hl' with hsub | hrest
      · cases hd : e.isDir with
        | false => rw [hd] at hsub; simp at hsub
        | true =>
          rw [hd] at hsub
          simp only [if_true] at hsub
          exact ih1 _ l hsub
      · exact ih2 pfx l (fun e' he' => hall e' (List.mem_cons_of_mem e he')) hrest

theorem keep_node_modules {nm : Entry} (h : nm.name = "node_modules") : keep nm = false := by
  simp [keep, h]

theorem build_tree_splice (n : String) (b : Bool) (xs ys : List Entry) (pfx : String)
    (nm : Entry) (h : nm.name = "node_modules") :
    build_tree (.dir n b (xs ++ nm :: ys)) pfx = build_tree (.dir n b (xs ++ ys)) pfx := by
  cases b with
  | false => rw [build_tree_denied, build_tree_denied]
  | true =>
    rw [build_tree_dir, build_tree_dir, filter_sortEnt, filter_sortEnt]
    have hf : List.filter keep (xs ++ nm :: ys) = List.filter keep (xs ++ ys) := by
      simp [List.filter_append, List.filter_cons, keep_node_modules h]
    rw [hf]

theorem annTree_file (n : String) (d : Nat) : annTree (.file n) d = [] := by
  simp [annTree]

theorem annTree_denied (n : String) (ch : List Entry) (d : Nat) :
    annTree (.dir n false ch) d = [] := by
  simp [annTree]

theorem annTree_dir (n : String) (ch : List Entry) (d : Nat) :
    annTree (.dir n true ch) d = annLoop ((sortEnt ch).filter keep) d := by
  simp [annTree]

theorem annLoop_nil (d : Nat) : annLoop [] d = [] := by
  simp [annLoop]

theorem annLoop_cons (e : Entry) (rest : List Entry) (d : Nat) :
    annLoop (e :: rest) d =
      (d, e.name) :: ((if e.isDir then annTree e (d + 1) else []) ++ annLoop rest d) := by
  simp [annLoop]

theorem annTree_shift_all :
    ∀ (e : Entry) (_d0 : Nat), ∀ d : Nat,
      annTree e d = (annTree e 0).map (fun p => (p.1 + d, p.2)) := by
  refine annTree.induct
    (fun e _ => ∀ d, annTree e d = (annTree e 0).map (fun p => (p.1 + d, p.2)))
    (fun es _ => ∀ d, annLoop es d = (annLoop es 0).map (fun p => (p.1 + d, p.2)))
    ?_ ?_ ?_ ?_ ?_
  · intro n x d
    simp [annTree_file]
  · intro n ch x d
    simp [annTree_denied]
  · intro n ch d0 ih d
    rw [annTree_dir, annTree_dir]
    exact ih d
  · intro x d
    simp [annLoop_nil]
  · intro e rest d0 ih1 ih2 d
    rw [annLoop_cons, annLoop_cons, ih2 d]
    simp only [List.map_cons, List.map_append]
    congr 1
    · simp
    · congr 1
      cases hd : e.isDir with
      | false => simp
      | true =>
        simp only [if_true]
        rw [ih1 (d + 1), ih1 1, List.map_map]
        refine List.map_congr_left fun p hp => ?_
        simp only [Function.comp_apply]
        refine congrArg (fun k => (k, p.2)) ?_
        omega

/-- Relation between an output line and its depth annotation: the line is
an accumulated prefix, one of the two connectors, and the annotated name,
and the accumulated prefix is exactly four characters longer per level of
depth below the call's own prefix. -/
def lineRel (pfx : String) (l : String) (dn : Nat × String) : Prop :=
  ∃ p c, (c = "├── " ∨ c = "└── ") ∧ l = p ++ c ++ dn.2 ∧
    p.length = pfx.length + 4 * dn.1

theorem build_tree_forall₂ :
    ∀ (e : Entry) (_s : String), ∀ pfx,
      List.Forall₂ (lineRel pfx) (build_tree e pfx) (annTree e 0) := by
  refine build_tree.induct
    (fun e _ => ∀ pfx, List.Forall₂ (lineRel pfx) (build_tree e pfx) (annTree e 0))
    (fun es _ => ∀ pfx, List.Forall₂ (lineRel pfx) (renderLoop es pfx) (annLoop es 0))
    ?_ ?_ ?_ ?_ ?_
  · intro n x pfx
    rw [build_tree_file, annTree_file]
    exact List.Forall₂.nil
  · intro n ch x pfx
    rw [build_tree_denied, annTree_denied]
    exact List.Forall₂.nil
  · intro n ch pfx0 ih pfx
    rw [build_tree_dir, annTree_dir]
    exact ih pfx
  · intro x pfx
    rw [renderLoop_nil, annLoop_nil]
    exact List.Forall₂.nil
  · intro e rest pfx0 _il ih1 ih2 pfx
    rw [renderLoop_cons, annLoop_cons]
    have hsub : List.Forall₂ (lineRel pfx)
        (if e.isDir then
          build_tree e (pfx ++ (if rest.isEmpty then "    " else "│   "))
        else [])
        (if e.isDir then annTree e (0 + 1) else []) := by
      cases hd : e.isDir with
      | false => exact List.Forall₂.nil
      | true =>
        simp only [if_true]
        rw [annTree_shift_all e 0 (0 + 1)]
        rw [List.forall₂_map_right_iff]
        refine (ih1 (pfx ++ (if rest.isEmpty then "    " else "│   "))).imp ?_
        intro l dn hr
        obtain ⟨p, c, hc, hl, hlen⟩ := hr
        refine ⟨p, c, hc, hl, ?_⟩
        have h4 : (pfx ++ (if rest.isEmpty then "    " else "│   ")).length
            = pfx.length + 4 := by
          cases rest.isEmpty <;> simp [String.length_append] <;> rfl
        rw [hlen, h4]
        omega
    refine List.Forall₂.cons ?_ (List.rel_append hsub (ih2 pfx))
    cases hlast : rest.isEmpty with
    | true => exact ⟨pfx, "└── ", Or.inr rfl, by simp, by simp⟩
    | false => exact ⟨pfx, "├── ", Or.inl rfl, by simp, by simp⟩

theorem renderLoop_contig (pfx : String) (c : Entry) :
    ∀ es : List Entry, c ∈ es →
      ∃ (pre post : List String) (b : Bool), renderLoop es pfx =
        pre ++ ((pfx ++ (if b then "└── " else "├── ") ++ c.name) ::
          (build_tree c (pfx ++ (if b then "    " else "│   ")) ++ post)) := by
  intro es
  induction es with
  | nil => intro h; cases h
  | cons e rest ih =>
    intro h
    rcases List.mem_cons.mp h with rfl | h'
    · refine ⟨[], renderLoop rest pfx, rest.isEmpty, ?_⟩
      rw [renderLoop_cons, ite_isDir_build_tree]
      simp
    · obtain ⟨pre, post, b, hb⟩ := ih h'
      refine ⟨(pfx ++ (if rest.isEmpty then "└── " else "├── ") ++ e.name) ::
        ((if e.isDir then
            build_tree e (pfx ++ (if rest.isEmpty then "    " else "│   "))
          else []) ++ pre), post, b, ?_⟩
      rw [renderLoop_cons, hb]
      simp

/-- C1: for every directory state and prefix, `build_tree` emits, for each
child surviving the filter, in sorted order, exactly one line
`prefix + connector + name` — the terminal glyph when the child is last in
the filtered list, the continuation glyph otherwise — and, for a directory
child, immediately appends the recursively built subtree whose prefix is
the current prefix extended by four spaces (last child) or by the vertical
bar plus three spaces (not last), preserving order. -/
theorem claim_C1 (n : String) (ch : List Entry) (pfx : String) :
    build_tree (.dir n true ch) pfx =
      (withLast ((sortEnt ch).filter keep)).flatMap (childBlock pfx) := by
  rw [build_tree_dir, renderLoop_eq_flatMap]

/-- C2: every output line of `build_tree` consists of a prefix, a
connector, and a name that neither starts with `.` nor equals
`node_modules`; moreover splicing out a `node_modules` entry — together
with its whole subtree — leaves the output unchanged, so nothing reachable
only through `node_modules` ever appears. -/
theorem claim_C2 :
    (∀ (e : Entry) (pfx l : String), l ∈ build_tree e pfx → goodLine l) ∧
    (∀ (n : String) (b : Bool) (xs ys : List Entry) (pfx : String) (nm : Entry),
      nm.name = "node_modules" →
      build_tree (.dir n b (xs ++ nm :: ys)) pfx =
        build_tree (.dir n b (xs ++ ys)) pfx) :=
  ⟨fun e pfx l h => mem_build_tree_goodLine e "" pfx l h,
   fun n b xs ys pfx nm h => build_tree_splice n b xs ys pfx nm h⟩

theorem claim_C2_witness :
    goodLine "├── a" ∧
    build_tree
        (.dir "r" true
          ([Entry.file "a"] ++ Entry.dir "node_modules" true [Entry.file "x"] :: [Entry.file "z"]))
        "" =
      build_tree (.dir "r" true ([Entry.file "a"] ++ [Entry.file "z"])) "" := by
  constructor
  · refine claim_C2.1 (Entry.dir "r" true [Entry.file "a", Entry.file "z"]) "" "├── a" ?_
    simp +decide [build_tree, renderLoop, sortEnt, keep, pyStartsWith, List.insertionSort,
      List.orderedInsert, Entry.name, Entry.isDir, nameLe, List.filter_cons, List.filter_nil]
  · exact claim_C2.2 "r" true [Entry.file "a"] [Entry.file "z"] ""
      (Entry.dir "node_modules" true [Entry.file "x"]) rfl

/-- C3: children are listed in lexicographic order of their names: the name
sequence fed to the rendering loop is sorted, and for siblings `b`, `a`,
`c` the output lists them as `a`, `b`, `c`. -/
theorem claim_C3 :
    (∀ ch : List Entry, List.Sorted (fun a b : String => a ≤ b)
        (((sortEnt ch).filter keep).map Entry.name)) ∧
    build_tree (.dir "d" true [.file "b", .file "a", .file "c"]) "" =
      ["├── a", "├── b", "└── c"] := by
  constructor
  · intro ch
    have h := List.Pairwise.filter (R := nameLe) keep (sorted_sortEnt ch)
    rw [List.Sorted, List.pairwise_map]
    exact h
  · simp +decide [build_tree, renderLoop, sortEnt, keep, pyStartsWith, List.insertionSort,
      List.orderedInsert, Entry.name, Entry.isDir, nameLe, List.filter_cons, List.filter_nil]

/-- C4: a permission error while listing makes `build_tree` return no
lines; the denied directory still contributes exactly its own line in the
parent's output and zero child lines; only `PermissionError` is caught by
the `try`/`except`, every other listing error propagates unchanged. -/
theorem claim_C4 :
    (∀ (n : String) (ch : List Entry) (pfx : String),
        build_tree (.dir n false ch) pfx = []) ∧
    (∀ (pfx m : String) (ch : List Entry) (b : Bool),
        childBlock pfx (Entry.dir m false ch, b) =
          [pfx ++ (if b then "└── " else "├── ") ++ m]) ∧
    (∀ oe : Option Entry, listdir oe = .error .permissionError →
        listdirTry oe = .ok []) ∧
    (∀ (oe : Option Entry) (err : ListdirError), err ≠ .permissionError →
        listdir oe = .error err → listdirTry oe = .error err) := by
  refine ⟨fun n ch pfx => build_tree_denied n ch pfx, ?_, ?_, ?_⟩
  · intro pfx m ch b
    simp [childBlock, Entry.isDir, Entry.name, build_tree_denied]
  · intro oe h
    unfold listdirTry
    rw [h]
  · intro oe err hne h
    unfold listdirTry
    rw [h]
    cases err with
    | permissionError => exact absurd rfl hne
    | fileNotFound => rfl
    | notADirectory => rfl

theorem claim_C4_witness :
    listdir (some (Entry.file "f")) = .error .notADirectory ∧
    listdirTry (some (Entry.file "f")) = .error .notADirectory ∧
    listdirTry (some (Entry.dir "d" false [Entry.file "x"])) = .ok [] := by
  refine ⟨rfl, ?_, ?_⟩
  · exact claim_C4.2.2.2 (some (Entry.file "f")) .notADirectory (by decide) rfl
  · exact claim_C4.2.2.1 (some (Entry.dir "d" false [Entry.file "x"])) rfl

/-- C5: on a tree with no hidden entry, no `node_modules` entry and no
permission-denied directory (so that every entry is reachable by the
recursive descent), the number of lines `build_tree` returns equals the
total number of files and directories reachable from the root. -/
theorem claim_C5 :
    ∀ e : Entry, okTree e = true → ∀ pfx, (build_tree e pfx).length = totalCount e :=
  length_build_tree_of_ok

theorem claim_C5_witness :
    (build_tree (.dir "r" true [.file "a", .dir "s" true [.file "i"]]) "").length =
      totalCount (.dir "r" true [.file "a", .dir "s" true [.file "i"]]) :=
  claim_C5 (.dir "r" true [.file "a", .dir "s" true [.file "i"]]) (by decide) ""

/-- C6: every directory's descendant lines form a contiguous block
immediately after that directory's own line, and each emitted line's
accumulated prefix is exactly four characters per recursion depth level
on top of the initial prefix (the depth being the one recorded by
`annTree`). -/
theorem claim_C6 :
    (∀ (n : String) (ch : List Entry) (pfx : String) (c : Entry),
        c ∈ (sortEnt ch).filter keep →
        ∃ (pre post : List String) (b : Bool),
          build_tree (.dir n true ch) pfx =
            pre ++ ((pfx ++ (if b then "└── " else "├── ") ++ c.name) ::
              (build_tree c (pfx ++ (if b then "    " else "│   ")) ++ post))) ∧
    (∀ (e : Entry) (pfx : String),
        List.Forall₂ (lineRel pfx) (build_tree e pfx) (annTree e 0)) := by
  constructor
  · intro n ch pfx c hc
    rw [build_tree_dir]
    exact renderLoop_contig pfx c _ hc
  · exact fun e pfx => build_tree_forall₂ e "" pfx

theorem claim_C6_witness :
    ∃ (pre post : List String) (b : Bool),
      build_tree (.dir "r" true [.file "a"]) "" =
        pre ++ (("" ++ (if b then "└── " else "├── ") ++ (Entry.file "a").name) ::
          (build_tree (.file "a") ("" ++ (if b then "    " else "│   ")) ++ post)) := by
  refine claim_C6.1 "r" [.file "a"] "" (.file "a") ?_
  simp +decide [sortEnt, List.insertionSort, List.orderedInsert, nameLe, Entry.name,
    keep, pyStartsWith, List.filter_cons]

/-- C7: on a root containing exactly the files `a.txt`, `z.txt` and the
directory `sub` containing `inner.txt`, the program's output is the root
path followed by `├── a.txt`, `├── sub`, `│   └── inner.txt`,
`└── z.txt`, in that order. -/
theorem claim_C7 (rootPath : String) :
    scan rootPath
        (.dir "root" true [.file "a.txt", .file "z.txt", .dir "sub" true [.file "inner.txt"]]) =
      [rootPath, "├── a.txt", "├── sub", "│   └── inner.txt", "└── z.txt"] := by
  simp +decide [scan, build_tree, renderLoop, sortEnt, keep, pyStartsWith,
    List.insertionSort, List.orderedInsert, Entry.name, Entry.isDir, nameLe,
    List.filter_cons, List.filter_nil]

/-- C8: the builder is deterministic — its output is a function of the
filesystem state, the path and the prefix alone, so two runs on the same
unchanged subtree with the same prefix yield identical output. -/
theorem claim_C8 (e₁ e₂ : Entry) (p₁ p₂ : String) (he : e₁ = e₂) (hp : p₁ = p₂) :
    build_tree e₁ p₁ = build_tree e₂ p₂ := by
  rw [he, hp]

theorem claim_C8_witness :
    build_tree (.dir "r" true [.file "a"]) "" = build_tree (.dir "r" true [.file "a"]) "" :=
  claim_C8 (.dir "r" true [.file "a"]) (.dir "r" true [.file "a"]) "" "" rfl rfl

/-- C9: the prefix acts homomorphically — `build_tree path p` is
`build_tree path ''` with `p` prepended to every line. -/
theorem claim_C9 (e : Entry) (p : String) :
    build_tree e p = (build_tree e "").map (fun l => p ++ l) :=
  build_tree_pfx_eq e p

/-- C10: a non-directory child contributes exactly one line and is never
recursed into, and the total output of the (total, well-founded) embedding
is bounded by the size of the tree. -/
theorem claim_C10 :
    (∀ (pfx n : String) (b : Bool),
        childBlock pfx (Entry.file n, b) = [pfx ++ (if b then "└── " else "├── ") ++ n]) ∧
    (∀ (e : Entry) (pfx : String), (build_tree e pfx).length ≤ totalCount e) := by
  constructor
  · intro pfx n b
    simp [childBlock, Entry.isDir, Entry.name]
  · exact fun e pfx => length_build_tree_le e pfx
